import Mathlib

/-!
# khimeradb — formal model of the storage engine core

Shallow embedding of the khimeradb sources (`src/kv.rs`, `src/streams.rs`,
`src/log.rs`) in Lean 4, together with theorems settling the specification
claims about them.

Modelling conventions:
* Rust `String` keys are modelled as their UTF-8 byte sequences (`List Nat`);
  Rust's `Ord` on `String` compares the UTF-8 bytes lexicographically, which
  is exactly the `List.Lex (· < ·)` linear order on `List Nat` used here.
* Byte vectors (`Vec<u8>`) are `List Nat` whose elements are below 256 where
  it matters.
* `BTreeMap<String, Option<Vec<u8>>>` is modelled as an association list kept
  strictly sorted by key (`btInsert` / `btGet` mirror `insert` / `get`);
  iteration order of the `BTreeMap` is the list order.
* `usize`/`u64` arithmetic uses `Nat`; Rust's panicking/wrapping subtraction
  is modelled with truncated `Nat` subtraction (the subtractions below never
  underflow in the states the theorems quantify over).
* Fallible I/O is modelled with `Except ErrKind`.
-/

set_option maxRecDepth 8192

namespace Khimera

/-- UTF-8 bytes of a Rust `String` key. -/
abbrev Key := List Nat

/-- A value byte vector (`Vec<u8>`). -/
abbrev Value := List Nat

/-- `io::ErrorKind` values used by the sources. -/
inductive ErrKind where
  | invalidInput
  | invalidData
  | unexpectedEof
  deriving DecidableEq, Repr

/-- `BTreeMap::get` on the sorted association list: the unique entry with
this key, if any. -/
def btGet (k : Key) : List (Key × Option Value) → Option (Option Value)
  | [] => none
  | (k', v) :: rest => if k = k' then some v else btGet k rest

/-- `BTreeMap::insert` on the sorted association list: replace the entry for
`k` if present, otherwise insert it at its sorted position. -/
def btInsert (k : Key) (v : Option Value) : List (Key × Option Value) → List (Key × Option Value)
  | [] => [(k, v)]
  | (k', v') :: rest =>
    if k < k' then (k, v) :: (k', v') :: rest
    else if k = k' then (k, v) :: rest
    else (k', v') :: btInsert k v rest

/-- `const SEGMENT_SIZE_LIMIT: usize = 1024` (kv.rs). -/
def SEGMENT_SIZE_LIMIT : Nat := 1024

/-- `struct SSTableSegment` (kv.rs): the in-memory segment. -/
structure SSTableSegment where
  data : List (Key × Option Value)
  size : Nat
  serial : Nat
  deriving DecidableEq, Repr

/-- `SSTableSegment::new` (kv.rs). -/
def SSTableSegment.new (serial : Nat) : SSTableSegment :=
  { data := [], size := 0, serial := serial }

/-- `SSTableSegment::insert` (kv.rs): size bookkeeping, map insert, serial
bump.  `self.size -= old_value.len()` cannot underflow whenever `size`
accounts for the stored live values, as in every state considered below. -/
def SSTableSegment.insert (s : SSTableSegment) (key : Key) (value : Option Value) :
    SSTableSegment :=
  let size1 :=
    match btGet key s.data with
    | some (some oldValue) => s.size - oldValue.length
    | _ => s.size + key.length
  let size2 :=
    match value with
    | some newValue => size1 + newValue.length
    | none => size1
  { data := btInsert key value s.data, size := size2, serial := s.serial + 1 }

/-- `SSTableSegment::delete` (kv.rs): tombstone insert, serial bump. -/
def SSTableSegment.delete (s : SSTableSegment) (key : Key) : SSTableSegment :=
  let size1 :=
    match btGet key s.data with
    | some (some oldValue) => s.size - oldValue.length
    | _ => s.size
  { data := btInsert key none s.data, size := size1, serial := s.serial + 1 }

/-- `pub struct SSTable` (kv.rs); the `path` field only names the backing
directory and does not influence the in-memory operations modelled here. -/
structure SSTable where
  segments : List SSTableSegment
  deriving DecidableEq, Repr

/-- Apply `f` to the last element of a list, mirroring
`self.segments[self.segments.len() - 1]` mutation. -/
def modifyLast (f : α → α) : List α → List α
  | [] => []
  | [a] => [f a]
  | a :: b :: rest => a :: modifyLast f (b :: rest)

/-- `SSTable::add_segment` (kv.rs): push a fresh segment seeded from the
previous tail's serial.  The subsequent `self.write(&self.path)` call only
touches the file system (after the push), so it does not affect the
in-memory segment list modelled here. -/
def SSTable.addSegment (t : SSTable) : SSTable :=
  { segments := t.segments ++ [SSTableSegment.new ((t.segments.getLastD (SSTableSegment.new 0)).serial)] }

/-- `SSTable::insert` (kv.rs): insert into the open (last) segment, then
rotate if the size limit is exceeded.  (The Rust code indexes
`segments.len() - 1` and would panic on an empty segment list; every
reachable table has at least one segment.) -/
def SSTable.insert (t : SSTable) (key : Key) (value : Value) : SSTable :=
  let t1 : SSTable := { segments := modifyLast (fun s => s.insert key (some value)) t.segments }
  if (t1.segments.getLastD (SSTableSegment.new 0)).size > SEGMENT_SIZE_LIMIT then
    t1.addSegment
  else t1

/-- The tail-to-head scan of `SSTable::get` over an already reversed
segment list: first segment whose map contains the key wins. -/
def segGetList (key : Key) : List SSTableSegment → Option (Option Value)
  | [] => none
  | seg :: rest =>
    match btGet key seg.data with
    | some v => some v
    | none => segGetList key rest

/-- `SSTable::get` (kv.rs): scan segments newest-to-oldest; a found tombstone
(`some none`) yields `none`. -/
def SSTable.get (t : SSTable) (key : Key) : Option Value :=
  match segGetList key t.segments.reverse with
  | some v => v
  | none => none

/-- `SSTable::delete` (kv.rs): tombstone into the open (last) segment. -/
def SSTable.delete (t : SSTable) (key : Key) : SSTable :=
  { segments := modifyLast (fun s => s.delete key) t.segments }

/-- The byte size `key.len() + value.as_ref().map_or(0, |v| v.len())`
computed for each merged entry in `SSTable::compact`. -/
def entrySize (kv : Key × Option Value) : Nat :=
  kv.1.length + ((kv.2.map List.length).getD 0)

/-- The body of the re-chunking loop of `SSTable::compact`.  In the Rust
loop `current_segment` always equals `new_segments.len() - 1`, so the vector
of new segments is represented as the pair (finished chunks, current open
chunk). -/
def compactStep (acc : List SSTableSegment × SSTableSegment) (kv : Key × Option Value) :
    List SSTableSegment × SSTableSegment :=
  let seg2 := acc.2.insert kv.1 kv.2
  if seg2.size + entrySize kv > SEGMENT_SIZE_LIMIT then
    (acc.1 ++ [seg2], SSTableSegment.new seg2.serial)
  else
    (acc.1, seg2)

/-- The merge phase of `SSTable::compact`: fold every segment's map,
oldest-to-newest, into one `BTreeMap`. -/
def compactMerge (segs : List SSTableSegment) : List (Key × Option Value) :=
  segs.foldl (fun m seg => seg.data.foldl (fun m kv => btInsert kv.1 kv.2 m) m) []

/-- `SSTable::compact` (kv.rs): merge all segments keeping the last write
per key, then re-chunk by the size limit.  (`self.segments.last().unwrap()`
panics on an empty list; every reachable table is nonempty.) -/
def SSTable.compact (t : SSTable) : SSTable :=
  let merged := compactMerge t.segments
  let lastSerial := (t.segments.getLastD (SSTableSegment.new 0)).serial
  let res := merged.foldl compactStep ([], SSTableSegment.new lastSerial)
  { segments := res.1 ++ [res.2] }

/-- The table produced by `SSTable::try_new` on an empty directory: one
fresh open segment with serial 0. -/
def SSTable.empty : SSTable :=
  { segments := [SSTableSegment.new 0] }

/-- A mutating table operation (`insert` or `delete`). -/
inductive Op where
  | ins (key : Key) (value : Value)
  | del (key : Key)

/-- Apply one operation to a table. -/
def applyOp (t : SSTable) : Op → SSTable
  | .ins k v => t.insert k v
  | .del k => t.delete k

/-- Apply a sequence of operations to a table. -/
def applyOps (t : SSTable) (ops : List Op) : SSTable :=
  ops.foldl applyOp t

/-- Modelled from the spec's words (§8, "For all operation sequences,
`get(key)` reflects the most recent write to that key: the value of the last
insert, or none if the last write was a delete or the key was never
written"), starting from a given default for keys not written in `ops`. -/
def specLastWriteFrom (init : Option Value) (ops : List Op) (key : Key) : Option Value :=
  ops.foldl
    (fun acc op =>
      match op with
      | .ins k v => if k = key then some v else acc
      | .del k => if k = key then none else acc)
    init

/-- Modelled from the spec's words: the most recent write to `key` in `ops`
(`some` the last inserted value, `none` after a trailing delete or if never
written). -/
def specLastWrite (ops : List Op) (key : Key) : Option Value :=
  specLastWriteFrom none ops key

/-- The result of the tail-to-head scan, collapsed the way `SSTable::get`
returns it (found tombstone and no match both give `none`). -/
def collapse : Option (Option Value) → Option Value
  | some v => v
  | none => none

/-! ## Reachable tables and their invariants (for C7/C8) -/

/-- A mutating table operation, compaction included. -/
inductive TOp where
  | ins (key : Key) (value : Value)
  | del (key : Key)
  | compact

/-- Apply one operation (insert/delete/compact) to a table. -/
def applyTOp (t : SSTable) : TOp → SSTable
  | .ins k v => t.insert k v
  | .del k => t.delete k
  | .compact => t.compact

/-- Apply a sequence of operations (insert/delete/compact) to a table. -/
def applyTOps (t : SSTable) (ops : List TOp) : SSTable :=
  ops.foldl applyTOp t

/-- A table state reachable from construction (on an empty directory) by
insert/delete/compact calls. -/
def Reachable (t : SSTable) : Prop :=
  ∃ ops, applyTOps SSTable.empty ops = t

/-- The segment's map is strictly sorted by key, as a `BTreeMap` is. -/
def segSorted (s : SSTableSegment) : Prop :=
  (s.data.map Prod.fst).Pairwise (· < ·)

/-- Invariants of every reachable table: at least one segment, strictly
sorted segment maps, and head-to-tail non-decreasing serials. -/
def WF (t : SSTable) : Prop :=
  t.segments ≠ [] ∧ (∀ s ∈ t.segments, segSorted s) ∧
    List.Chain' (· ≤ ·) (t.segments.map SSTableSegment.serial)

/-! ## Binary segment format: `write_segment` / `read_segment` (kv.rs) -/

/-- `(v.len() as u32).to_le_bytes()`: little-endian bytes of the length,
truncated to 32 bits by the `as u32` cast (65536 = 256^2, 16777216 = 256^3). -/
def u32le (n : Nat) : List Nat :=
  [n % 256, n / 256 % 256, n / 65536 % 256, n / 16777216 % 256]

/-- One entry of the on-disk segment format: key bytes, one `0x00`
terminator, then either the 4-byte little-endian value length followed by
the value bytes (live) or four zero bytes (tombstone). -/
def writeEntry (kv : Key × Option Value) : List Nat :=
  kv.1 ++ 0 ::
    (match kv.2 with
      | some v => u32le v.length ++ v
      | none => [0, 0, 0, 0])

/-- `SSTable::write_segment` (kv.rs): entries in key order (the map's list
order).  The trailing `writer.flush()` has no effect on the bytes. -/
def SSTable.writeSegment (s : SSTableSegment) : List Nat :=
  (s.data.map writeEntry).flatten

/-- A UTF-8 continuation byte (`0x80..=0xBF`). -/
def contByte (c : Nat) : Bool := 128 ≤ c && c ≤ 191

/-- Validity of a byte sequence as UTF-8 (RFC 3629), modelling
`String::from_utf8`: a Rust `String` is exactly a byte vector satisfying
this predicate, and decoding returns the same bytes. -/
def utf8Valid : List Nat → Bool
  | [] => true
  | b :: rest =>
    if b ≤ 127 then utf8Valid rest
    else if 194 ≤ b && b ≤ 223 then
      match rest with
      | c1 :: rest2 => contByte c1 && utf8Valid rest2
      | [] => false
    else if b = 224 then
      match rest with
      | c1 :: c2 :: rest2 => (160 ≤ c1 && c1 ≤ 191) && contByte c2 && utf8Valid rest2
      | _ => false
    else if (225 ≤ b && b ≤ 236) || b = 238 || b = 239 then
      match rest with
      | c1 :: c2 :: rest2 => contByte c1 && contByte c2 && utf8Valid rest2
      | _ => false
    else if b = 237 then
      match rest with
      | c1 :: c2 :: rest2 => (128 ≤ c1 && c1 ≤ 159) && contByte c2 && utf8Valid rest2
      | _ => false
    else if b = 240 then
      match rest with
      | c1 :: c2 :: c3 :: rest2 => (144 ≤ c1 && c1 ≤ 191) && contByte c2 && contByte c3 && utf8Valid rest2
      | _ => false
    else if 241 ≤ b && b ≤ 243 then
      match rest with
      | c1 :: c2 :: c3 :: rest2 => contByte c1 && contByte c2 && contByte c3 && utf8Valid rest2
      | _ => false
    else if b = 244 then
      match rest with
      | c1 :: c2 :: c3 :: rest2 => (128 ≤ c1 && c1 ≤ 143) && contByte c2 && contByte c3 && utf8Valid rest2
      | _ => false
    else false

/-- The parsing loop of `SSTable::read_segment` (kv.rs).  Per iteration:
read key bytes up to the `0` terminator (`Ok` at EOF with an empty buffer,
unexpected-EOF otherwise), decode the key as UTF-8 (invalid-data on
failure), read the 4-byte little-endian value length (unexpected-EOF if
short), then a zero length inserts a tombstone and a nonzero length reads
exactly that many value bytes (unexpected-EOF if short). -/
def readSegmentLoop (seg : SSTableSegment) (input : List Nat) : Except ErrKind SSTableSegment :=
  match hin : input with
  | [] => .ok seg
  | _ :: _ =>
    let buf := input.takeWhile (fun b => b != 0)
    match hrest : input.dropWhile (fun b => b != 0) with
    | [] => .error .unexpectedEof
    | _ :: l0 :: l1 :: l2 :: l3 :: rest3 =>
      if utf8Valid buf then
        let valueLen := l0 + 256 * l1 + 65536 * l2 + 16777216 * l3
        if valueLen = 0 then
          readSegmentLoop (seg.insert buf none) rest3
        else if rest3.length < valueLen then .error .unexpectedEof
        else readSegmentLoop (seg.insert buf (some (rest3.take valueLen))) (rest3.drop valueLen)
      else .error .invalidData
    | _ :: _ =>
      if utf8Valid buf then .error .unexpectedEof else .error .invalidData
  termination_by input.length
  decreasing_by
  · have h2 : input.length = (input.takeWhile (fun b => b != 0)).length
        + (input.dropWhile (fun b => b != 0)).length := by
      rw [← List.length_append, List.takeWhile_append_dropWhile]
    rw [hrest] at h2
    rw [← hin]
    simp only [List.length_cons] at h2
    omega
  · have h2 : input.length = (input.takeWhile (fun b => b != 0)).length
        + (input.dropWhile (fun b => b != 0)).length := by
      rw [← List.length_append, List.takeWhile_append_dropWhile]
    rw [hrest] at h2
    rw [← hin]
    simp only [List.length_cons] at h2
    have h3 := List.length_drop (l0 + 256 * l1 + 65536 * l2 + 16777216 * l3) rest3
    omega

/-- `SSTable::read_segment` (kv.rs). -/
def SSTable.readSegment (input : List Nat) (initialSerial : Nat) : Except ErrKind SSTableSegment :=
  readSegmentLoop (SSTableSegment.new initialSerial) input

/-- The canonical size accounting of a segment map: key length plus live
value length, summed over the entries (what `read_segment` re-derives). -/
def canonicalSize (data : List (Key × Option Value)) : Nat :=
  (data.map entrySize).sum

/-! ## Directory loading: `SSTable::read` / `SSTable::try_new` (kv.rs) -/

/-- A regular file of the table directory: name stem, optional extension,
content bytes (names as character lists).  (`SSTable::read` filters out
non-file entries with `is_file()` before validating, so only regular files
are modelled.) -/
structure FsFile where
  stem : List Char
  ext : Option (List Char)
  content : List Nat
  deriving DecidableEq, Repr

/-- The numeric value of an ASCII digit character. -/
def digitVal (c : Char) : Nat := c.toNat - 48

/-- `str::parse::<u64>`: an optional leading `+` sign followed by at least
one ASCII digit; anything else fails.  (Overflow above `u64::MAX` is not
modelled; such stems do not occur in the claims.) -/
def parseNat (cs : List Char) : Option Nat :=
  let ds :=
    match cs with
    | '+' :: rest => rest
    | _ => cs
  if ds = [] then none
  else if ds.all (fun c => c.isDigit) then
    some (ds.foldl (fun acc c => acc * 10 + digitVal c) 0)
  else none

/-- The `parse_serial` helper of `SSTable::read`: parse the file stem as a
number. -/
def parseSerial (f : FsFile) : Option Nat :=
  parseNat f.stem

/-- The root path argument of `SSTable::read`: either not a directory, or a
directory holding the given regular files (in directory-iteration order). -/
inductive DirState where
  | notDir
  | dir (files : List FsFile)

/-- The validation pass of `SSTable::read`: every file must have extension
`sst` and a numeric stem, else invalid-input. -/
def validateFiles : List FsFile → Except ErrKind Unit
  | [] => .ok ()
  | f :: rest =>
    if f.ext ≠ some ['s', 's', 't'] then .error .invalidInput
    else if (parseSerial f).isNone then .error .invalidInput
    else validateFiles rest

/-- `entries.sort_by_key(|p| parse_serial(p).unwrap())`: stable sort by the
numeric serial (validation has ensured every stem parses). -/
def sortFiles (files : List FsFile) : List FsFile :=
  files.mergeSort (fun a b => Nat.ble ((parseSerial a).getD 0) ((parseSerial b).getD 0))

/-- The decoding loop of `SSTable::read`: decode each file seeded with the
running serial, check the resulting segment's serial against the filename
serial (invalid-data on mismatch), and thread the serial forward. -/
def readLoop (serial : Nat) : List FsFile → Except ErrKind (List SSTableSegment)
  | [] => .ok []
  | f :: rest =>
    match SSTable.readSegment f.content serial with
    | .error e => .error e
    | .ok seg =>
      if (parseSerial f).getD 0 ≠ seg.serial then .error .invalidData
      else
        match readLoop seg.serial rest with
        | .error e => .error e
        | .ok segs => .ok (seg :: segs)

/-- `SSTable::read` (kv.rs): invalid-input for a non-directory root, then
validate all filenames, sort by serial, and decode in order. -/
def SSTable.read : DirState → Except ErrKind (List SSTableSegment)
  | .notDir => .error .invalidInput
  | .dir files =>
    match validateFiles files with
    | .error e => .error e
    | .ok _ => readLoop 0 (sortFiles files)

/-- `SSTable::try_new` (kv.rs).  `SSTable::read(path).unwrap_or_default()`
discards any read error and falls back to an empty segment list; a fresh
open segment (serial 0) is pushed only when that list is empty.  The Rust
signature returns `io::Result<Self>` but every path returns `Ok`. -/
def SSTable.tryNew (d : DirState) : SSTable :=
  let segments :=
    match SSTable.read d with
    | .ok segs => segs
    | .error _ => []
  if segments.isEmpty then ⟨[SSTableSegment.new 0]⟩ else ⟨segments⟩

/-! ## Round-trip of the binary segment format (C2) -/

/-- Entry hypotheses under which the binary format is faithful: the key is
valid UTF-8 (it came from a Rust `String`) and free of null bytes, and a
live value is nonempty with length below `2^32` (the `as u32` cast). -/
def goodEntry (kv : Key × Option Value) : Prop :=
  utf8Valid kv.1 = true ∧ (∀ b ∈ kv.1, b ≠ 0) ∧
    ∀ w, kv.2 = some w → 0 < w.length ∧ w.length < 4294967296

/-! ## `FileSegmentStream` (streams.rs) -/

/-- `struct Segment` (streams.rs): a backing file (its bytes and OS-level
cursor) with the logical `start`/`end` offsets.  `endPos` models the Rust
field `end` (a Lean keyword). -/
structure StreamSegment where
  fileData : List Nat
  fileOffset : Nat
  start : Nat
  endPos : Nat
  deriving DecidableEq, Repr

instance : Inhabited StreamSegment := ⟨⟨[], 0, 0, 0⟩⟩

/-- `Segment::size` (streams.rs): `end - start` on `u64`.  Truncated `Nat`
subtraction stands in for the machine subtraction, which does not underflow
in the states considered here. -/
def StreamSegment.size (sg : StreamSegment) : Nat := sg.endPos - sg.start

/-- `Segment::new` (streams.rs): a fresh backing file starting (and ending)
at `start`; the file is created empty
(`OpenOptions::create(true).truncate(true)`). -/
def StreamSegment.new (start : Nat) : StreamSegment :=
  { fileData := [], fileOffset := 0, start := start, endPos := start }

/-- `pub struct FileSegmentStream` (streams.rs); the `root` path only names
the directory holding the backing files. -/
structure FileSegmentStream where
  segments : List StreamSegment
  position : Nat
  maxSegmentSize : Nat
  deriving DecidableEq, Repr

/-- `FileSegmentStream::new` (streams.rs); the root-directory check only
touches the file system. -/
def FileSegmentStream.new (maxSegmentSize : Nat) : FileSegmentStream :=
  { segments := [], position := 0, maxSegmentSize := maxSegmentSize }

/-- `File::write_all` at the file's current cursor: overwrite in place,
zero-padding if the cursor lies beyond the end of the file. -/
def fileWriteAll (data : List Nat) (off : Nat) (buf : List Nat) : List Nat :=
  let padded := data ++ List.replicate (off - data.length) 0
  padded.take off ++ buf ++ padded.drop (off + buf.length)

/-- `FileSegmentStream::write` (streams.rs): open a fresh backing file when
there is none or the tail exceeds the size threshold (the new segment
starts at the cursor position), `write_all` the bytes to the tail file, set
the tail's `end` to `position + len`, and advance the cursor. -/
def FileSegmentStream.write (s : FileSegmentStream) (buf : List Nat) : FileSegmentStream :=
  let size := buf.length
  let currentPos := s.position
  let segs :=
    if s.segments.isEmpty
        || ((s.segments.getLast?.map StreamSegment.size).getD 0 > s.maxSegmentSize) then
      s.segments ++ [StreamSegment.new currentPos]
    else s.segments
  let segs := modifyLast (fun sg =>
    { sg with
      fileData := fileWriteAll sg.fileData sg.fileOffset buf
      fileOffset := sg.fileOffset + size
      endPos := currentPos + size }) segs
  { s with segments := segs, position := s.position + size }

/-- `std::io::SeekFrom`; `fromEnd` models `SeekFrom::End` (`end` is a Lean
keyword). -/
inductive SeekFrom where
  | start (n : Nat)
  | fromEnd (n : Int)
  | current (n : Int)

/-- `FileSegmentStream::seek` (streams.rs): `Start` sets the cursor,
`End`/`Current` offset the total logical length / the cursor and fail with
invalid-input when the target is negative.  Returns the new position. -/
def FileSegmentStream.seek (s : FileSegmentStream) :
    SeekFrom → Except ErrKind (FileSegmentStream × Nat)
  | .start n => .ok ({ s with position := n }, n)
  | .fromEnd n =>
    let endPosition : Int :=
      ((s.segments.foldl (fun acc sg => acc + sg.size) 0 : Nat) : Int) + n
    if endPosition < 0 then .error .invalidInput
    else .ok ({ s with position := endPosition.toNat }, endPosition.toNat)
  | .current n =>
    let currentPosition : Int := (s.position : Int) + n
    if currentPosition < 0 then .error .invalidInput
    else .ok ({ s with position := currentPosition.toNat }, currentPosition.toNat)

/-- `slice::binary_search_by` (Rust standard library): halve `[left, right)`
around `mid = left + (right - left) / 2`, returning the first probe that
compares `Equal` (`none` models `Err(_)`). -/
def binarySearchGo [Inhabited α] (cmp : α → Ordering) (xs : List α) (left right : Nat) :
    Option Nat :=
  if left < right then
    let mid := left + (right - left) / 2
    match cmp (xs.getD mid default) with
    | .lt => binarySearchGo cmp xs (mid + 1) right
    | .gt => binarySearchGo cmp xs left mid
    | .eq => some mid
  else none
  termination_by right - left
  decreasing_by
  · omega
  · omega

/-- `self.segments.binary_search_by(...)` over the whole list. -/
def binarySearchBy [Inhabited α] (cmp : α → Ordering) (xs : List α) : Option Nat :=
  binarySearchGo cmp xs 0 xs.length

/-- The comparator of `FileSegmentStream::read`: a segment is `Greater`
when the cursor precedes its `start`, `Less` when the cursor is at or past
its `end`, `Equal` when the cursor falls inside `[start, end)`. -/
def readCmp (pos : Nat) (sg : StreamSegment) : Ordering :=
  if pos < sg.start then .gt
  else if pos ≥ sg.endPos then .lt
  else .eq

/-- The `while` loop of `FileSegmentStream::read` (streams.rs).  Per
iteration (while the buffer is not full and segments remain): seek the
current segment's file to `offset` (the cursor-relative offset for the
segment found by binary search, 0 for later ones), read from the file into
the remaining buffer space, advance to the next segment on a zero read
(stopping at the last), and accumulate the count.  `acc` holds the bytes
read so far (the prefix `buf[..total_read]` already overwritten), so
`total_read = acc.length`; the caller rebuilds the final buffer. -/
def streamReadLoop (segs : List StreamSegment) (pos segmentIndex : Nat)
    (currentSegment bufLen totalRead : Nat) (acc : List Nat) :
    List StreamSegment × List Nat × Nat :=
  if totalRead < bufLen ∧ currentSegment < segs.length then
    let sg := segs.getD currentSegment default
    let offset := if currentSegment = segmentIndex then pos - sg.start else 0
    let n := min (bufLen - totalRead) (sg.fileData.length - offset)
    let segs' := segs.set currentSegment { sg with fileOffset := offset + n }
    if n = 0 then
      if currentSegment + 1 < segs.length then
        streamReadLoop segs' pos segmentIndex (currentSegment + 1) bufLen totalRead acc
      else (segs', acc, totalRead)
    else
      streamReadLoop segs' pos segmentIndex currentSegment bufLen (totalRead + n)
        (acc ++ (sg.fileData.drop offset).take n)
  else (segs, acc, totalRead)
  termination_by (bufLen - totalRead, segs.length - currentSegment)
  decreasing_by
  · apply Prod.Lex.right
    simp only [List.length_set]
    omega
  · apply Prod.Lex.left
    rename_i hguard hne
    show bufLen - (totalRead + n) < bufLen - totalRead
    omega

/-- `FileSegmentStream::read` (streams.rs): 0 on an empty segment list or
when the cursor lies outside every segment's range; otherwise run the read
loop from the segment found by binary search.  Returns the updated stream,
the resulting buffer contents (`acc` is the overwritten prefix, the rest of
the caller's buffer is untouched), and the count `Ok(total_read)`. -/
def FileSegmentStream.read (s : FileSegmentStream) (buf : List Nat) :
    FileSegmentStream × List Nat × Nat :=
  if s.segments.isEmpty then (s, buf, 0)
  else
    match binarySearchBy (readCmp s.position) s.segments with
    | none => (s, buf, 0)
    | some i =>
      let res := streamReadLoop s.segments s.position i i buf.length 0 []
      ({ s with segments := res.1 }, res.2.1 ++ buf.drop res.2.1.length, res.2.2)

/-! ## `Log` / `LogIterator` (log.rs) over an in-memory stream (C6) -/

/-- `std::io::Cursor<Vec<u8>>`: the in-memory instance of the log's generic
stream parameter `T: Read + Write + Seek`, as used by the repository's own
tests and benches; its content is the raw byte sequence the iterator
scans. -/
structure Cursor where
  data : List Nat
  pos : Nat
  deriving DecidableEq, Repr

/-- `Cursor` `read(buf)`: copy `min(buf.len, remaining)` bytes over the
front of the buffer and advance; returns the updated cursor, the resulting
buffer contents, and the count (a cursor read never fails). -/
def Cursor.read (c : Cursor) (buf : List Nat) : Cursor × List Nat × Nat :=
  let available := c.data.drop c.pos
  let n := min buf.length available.length
  (⟨c.data, c.pos + n⟩, available.take n ++ buf.drop n, n)

/-- `Cursor` `seek(SeekFrom::Start(n))` (never fails). -/
def Cursor.seekStart (c : Cursor) (p : Nat) : Cursor := ⟨c.data, p⟩

/-- `u32::from_be_bytes` on the 4-byte length buffer. -/
def u32beDecode (l : List Nat) : Nat :=
  match l with
  | [a, b, c, d] => ((a * 256 + b) * 256 + c) * 256 + d
  | _ => 0

/-- `struct LogIterator` (log.rs): the scan position and the reusable
growable buffer. -/
structure LogIterator where
  position : Nat
  buf : List Nat
  deriving DecidableEq, Repr

/-- `LogIterator::next` (log.rs): seek the stream to `position`; read the
4-byte big-endian length (initialized to zeros) and stop on `Ok(0)`; grow
`self.buf` to `size` if needed (`Vec::resize(size, 0)`); read into
`buf[..size]` and stop on `Ok(0)`; otherwise advance `position` by
`4 + size` and yield a snapshot of `buf[..size]`.  Returns the yielded
item, the updated iterator, and the updated stream. -/
def LogIterator.next (it : LogIterator) (stream : Cursor) :
    Option (List Nat) × LogIterator × Cursor :=
  let stream := stream.seekStart it.position
  let r1 := stream.read [0, 0, 0, 0]
  if r1.2.2 = 0 then (none, it, r1.1)
  else
    let size := u32beDecode r1.2.1
    let buf :=
      if it.buf.length < size then it.buf ++ List.replicate (size - it.buf.length) 0
      else it.buf
    let r2 := r1.1.read (buf.take size)
    if r2.2.2 = 0 then (none, { it with buf := buf }, r2.1)
    else
      (some r2.2.1,
        { position := it.position + 4 + size, buf := r2.2.1 ++ buf.drop size }, r2.1)

/-! ## `StorageEngine` (spec §4.4) — C9

The repository sources under `src/` contain no `StorageEngine`
implementation (no file defines it; only §4.4 of the spec describes it), so
the engine is modelled from the spec. -/

/-- `table.latestSerial()` (spec §4.4): the open (last) segment's serial. -/
def SSTable.latestSerial (t : SSTable) : Nat :=
  (t.segments.getLastD (SSTableSegment.new 0)).serial

/-- Big-endian bytes of the 8-byte serial (`u64::to_be_bytes`). -/
def u64be (n : Nat) : List Nat :=
  [n / 72057594037927936 % 256, n / 281474976710656 % 256, n / 1099511627776 % 256,
   n / 4294967296 % 256, n / 16777216 % 256, n / 65536 % 256, n / 256 % 256, n % 256]

/-- Modelled from the spec: the WAL record layout of §4.4 — 8-byte
big-endian serial, 1-byte opcode, key, terminator, optional value,
terminator.  The spec fixes neither the opcode byte values nor the
terminator byte; 0 stands for Insert, 1 for Delete, and the terminator is
the null byte that §3 reserves. -/
def encodeWalRecord (serial : Nat) (opcode : Nat) (key : Key) (value : Option Value) :
    List Nat :=
  u64be serial ++ [opcode] ++ key ++ [0]
    ++ (match value with | some v => v | none => []) ++ [0]

/-- Modelled from the spec: the primitive effects one engine mutation
performs, in order. -/
inductive EngineStep where
  | walAppend (frame : List Nat)
  | walFlush
  | tableInsert (key : Key) (value : Value)
  | tableDelete (key : Key)

/-- Modelled from the spec: the engine couples an `SSTable` with a WAL
(§2/§4.4); `wal` is the sequence of appended record frames and `walFlushed`
counts the frames made durable by `flush`. -/
structure StorageEngine where
  table : SSTable
  wal : List (List Nat)
  walFlushed : Nat

/-- Modelled from the spec: the effect of each primitive engine step. -/
def engineStepApply (e : StorageEngine) : EngineStep → StorageEngine
  | .walAppend frame => { e with wal := e.wal ++ [frame] }
  | .walFlush => { e with walFlushed := e.wal.length }
  | .tableInsert k v => { e with table := e.table.insert k v }
  | .tableDelete k => { e with table := e.table.delete k }

/-- Modelled from the spec (§4.4 `insert`): compute
`serial = table.latestSerial() + 1`, encode the WAL record, append it,
flush the WAL, and only then apply the mutation to the table. -/
def StorageEngine.insertSteps (e : StorageEngine) (k : Key) (v : Value) : List EngineStep :=
  [.walAppend (encodeWalRecord (e.table.latestSerial + 1) 0 k (some v)), .walFlush,
    .tableInsert k v]

/-- Modelled from the spec (§4.4 `delete`): as for `insert`, with the
Delete opcode and no value. -/
def StorageEngine.deleteSteps (e : StorageEngine) (k : Key) : List EngineStep :=
  [.walAppend (encodeWalRecord (e.table.latestSerial + 1) 1 k none), .walFlush,
    .tableDelete k]

/-- `StorageEngine::insert`: run the steps in order. -/
def StorageEngine.insert (e : StorageEngine) (k : Key) (v : Value) : StorageEngine :=
  (e.insertSteps k v).foldl engineStepApply e

/-- `StorageEngine::delete`: run the steps in order. -/
def StorageEngine.delete (e : StorageEngine) (k : Key) : StorageEngine :=
  (e.deleteSteps k).foldl engineStepApply e

/-! ## Theorems -/

example : (SSTable.empty.insert [1] [5]).get [1] = some [5] := by decide

example : ((SSTable.empty.insert [1] [5]).delete [1]).get [1] = none := by decide

example : btInsert [2] (some [9]) [([1], some [7]), ([3], none)]
    = [([1], some [7]), ([2], some [9]), ([3], none)] := by decide

/-! ## Basic lemmas about the map and segment-list operations -/

theorem btGet_btInsert (k k' : Key) (v : Option Value) (m : List (Key × Option Value)) :
    btGet k' (btInsert k v m) = if k' = k then some v else btGet k' m := by
  induction m with
  | nil => simp [btInsert, btGet]
  | cons hd tl ih =>
    obtain ⟨k'', v''⟩ := hd
    by_cases hlt : k < k''
    · simp [btInsert, hlt, btGet]
    · by_cases heq : k = k''
      · subst heq
        by_cases h' : k' = k
        · simp [btInsert, hlt, btGet, h']
        · simp [btInsert, hlt, btGet, h']
      · by_cases h' : k' = k''
        · subst h'
          simp [btInsert, hlt, heq, btGet, Ne.symm heq]
        · simp [btInsert, hlt, heq, btGet, h', ih]

theorem get_eq_collapse (t : SSTable) (k : Key) :
    t.get k = collapse (segGetList k t.segments.reverse) := by
  rcases h : segGetList k t.segments.reverse with _ | v <;> simp [SSTable.get, collapse, h]

@[simp]
theorem segGetList_new_cons (k : Key) (s : Nat) (rest : List SSTableSegment) :
    segGetList k (SSTableSegment.new s :: rest) = segGetList k rest := by
  simp [segGetList, SSTableSegment.new, btGet]

theorem modifyLast_append_singleton (f : α → α) (l : List α) (a : α) :
    modifyLast f (l ++ [a]) = l ++ [f a] := by
  induction l with
  | nil => simp [modifyLast]
  | cons b l ih =>
    cases l with
    | nil => simp [modifyLast]
    | cons c l => simpa [modifyLast] using ih

theorem exists_append_singleton {l : List α} (h : l ≠ []) :
    ∃ init last, l = init ++ [last] := by
  rcases List.eq_nil_or_concat l with rfl | ⟨init, last, h2⟩
  · exact absurd rfl h
  · exact ⟨init, last, by simpa [List.concat_eq_append] using h2⟩

/-- `SSTable::get` on a nonempty table, unfolded to the open segment. -/
theorem get_append_singleton (init : List SSTableSegment) (last : SSTableSegment) (k : Key) :
    SSTable.get ⟨init ++ [last]⟩ k =
      collapse (match btGet k last.data with
        | some v => some v
        | none => segGetList k init.reverse) := by
  rw [get_eq_collapse]
  simp [List.reverse_append, segGetList]

/-- Appending a fresh empty segment does not change `get`. -/
theorem get_append_new (l : List SSTableSegment) (s : Nat) (k : Key) :
    SSTable.get ⟨l ++ [SSTableSegment.new s]⟩ k = SSTable.get ⟨l⟩ k := by
  rw [get_eq_collapse, get_eq_collapse]
  simp [List.reverse_append]

/-- Effect of `SSTable::insert` on `get`, for any nonempty table: the
inserted key now reads back the value, all other keys are unchanged
(rotation appends only an empty segment, which `get` skips). -/
theorem get_insert (t : SSTable) (h : t.segments ≠ []) (k : Key) (v : Value) (k' : Key) :
    (t.insert k v).get k' = if k' = k then some v else t.get k' := by
  obtain ⟨segs⟩ := t
  obtain ⟨init, last, rfl⟩ := exists_append_singleton (by simpa using h)
  have hbase : SSTable.get ⟨init ++ [last.insert k (some v)]⟩ k'
      = if k' = k then some v else SSTable.get ⟨init ++ [last]⟩ k' := by
    rw [get_append_singleton, get_append_singleton]
    have hdata : (last.insert k (some v)).data = btInsert k (some v) last.data := rfl
    rw [hdata, btGet_btInsert]
    by_cases h' : k' = k
    · simp [h', collapse]
    · simp [h']
  simp only [SSTable.insert, modifyLast_append_singleton]
  split
  · show SSTable.get ⟨(init ++ [last.insert k (some v)]) ++ [SSTableSegment.new _]⟩ k' = _
    rw [get_append_new]
    exact hbase
  · exact hbase

/-- Effect of `SSTable::delete` on `get`, for any nonempty table. -/
theorem get_delete (t : SSTable) (h : t.segments ≠ []) (k : Key) (k' : Key) :
    (t.delete k).get k' = if k' = k then none else t.get k' := by
  obtain ⟨segs⟩ := t
  obtain ⟨init, last, rfl⟩ := exists_append_singleton (by simpa using h)
  show SSTable.get ⟨modifyLast _ (init ++ [last])⟩ k' = _
  rw [modifyLast_append_singleton, get_append_singleton, get_append_singleton]
  have hdata : (last.delete k).data = btInsert k none last.data := rfl
  rw [hdata, btGet_btInsert]
  by_cases h' : k' = k
  · simp [h', collapse]
  · simp [h']

theorem modifyLast_ne_nil (f : α → α) {l : List α} (h : l ≠ []) : modifyLast f l ≠ [] := by
  cases l with
  | nil => exact absurd rfl h
  | cons a l => cases l <;> simp [modifyLast]

theorem insert_segments_ne_nil (t : SSTable) (h : t.segments ≠ []) (k : Key) (v : Value) :
    (t.insert k v).segments ≠ [] := by
  simp only [SSTable.insert]
  split
  · simp [SSTable.addSegment]
  · exact modifyLast_ne_nil _ h

theorem delete_segments_ne_nil (t : SSTable) (h : t.segments ≠ []) (k : Key) :
    (t.delete k).segments ≠ [] := by
  exact modifyLast_ne_nil _ h

theorem applyOp_segments_ne_nil (t : SSTable) (h : t.segments ≠ []) (op : Op) :
    (applyOp t op).segments ≠ [] := by
  cases op with
  | ins k v => exact insert_segments_ne_nil t h k v
  | del k => exact delete_segments_ne_nil t h k

/-- Inductive core of the C1 refinement: running the remaining operations
refines the spec-side fold started from the table's current answer. -/
theorem get_applyOps (ops : List Op) : ∀ (t : SSTable), t.segments ≠ [] → ∀ key,
    (applyOps t ops).get key = specLastWriteFrom (t.get key) ops key := by
  induction ops with
  | nil => intro t _ key; rfl
  | cons op ops ih =>
    intro t h key
    have step := ih (applyOp t op) (applyOp_segments_ne_nil t h op) key
    show (applyOps (applyOp t op) ops).get key = _
    rw [step]
    cases op with
    | ins k v =>
      show _ = specLastWriteFrom (if k = key then some v else t.get key) ops key
      rw [applyOp, get_insert t h k v key]
      by_cases h' : key = k
      · simp [h', if_pos rfl]
      · rw [if_neg h', if_neg (fun hc => h' hc.symm)]
    | del k =>
      show _ = specLastWriteFrom (if k = key then none else t.get key) ops key
      rw [applyOp, get_delete t h k key]
      by_cases h' : key = k
      · simp [h', if_pos rfl]
      · rw [if_neg h', if_neg (fun hc => h' hc.symm)]

theorem empty_get (key : Key) : SSTable.empty.get key = none := by
  simp [SSTable.empty, SSTable.get, segGetList, SSTableSegment.new, btGet]

/-- **C1.** For every sequence of insert/delete operations applied to a fresh
table and every key, `get(key)` returns the value of the most recent insert
of that key, and `none` if the most recent write was a delete or the key was
never written — across segment rotations, since newer segments are scanned
first. -/
theorem c1_get_reflects_most_recent_write (ops : List Op) (key : Key) :
    (applyOps SSTable.empty ops).get key = specLastWrite ops key := by
  rw [specLastWrite, ← empty_get key]
  exact get_applyOps ops SSTable.empty (by simp [SSTable.empty]) key

theorem btGet_eq_none (key : Key) (m : List (Key × Option Value))
    (h : key ∉ m.map Prod.fst) : btGet key m = none := by
  induction m with
  | nil => rfl
  | cons hd tl ih =>
    simp only [List.map_cons, List.mem_cons, not_or] at h
    simp [btGet, h.1, ih h.2]

theorem btGet_append (key : Key) (l1 l2 : List (Key × Option Value)) :
    btGet key (l1 ++ l2) =
      match btGet key l1 with
      | some v => some v
      | none => btGet key l2 := by
  induction l1 with
  | nil => simp [btGet]
  | cons hd tl ih =>
    by_cases h : key = hd.1
    · simp [btGet, h]
    · simp [btGet, h, ih]

theorem mem_keys_btInsert {a : Key} {k : Key} {v : Option Value}
    {m : List (Key × Option Value)} (h : a ∈ (btInsert k v m).map Prod.fst) :
    a = k ∨ a ∈ m.map Prod.fst := by
  induction m with
  | nil => simpa [btInsert] using h
  | cons hd tl ih =>
    obtain ⟨k'', v''⟩ := hd
    by_cases hlt : k < k''
    · simpa [btInsert, hlt] using h
    · by_cases heq : k = k''
      · subst heq
        simp only [btInsert, if_neg hlt, if_pos rfl] at h
        simpa using h
      · simp only [btInsert, if_neg hlt, if_neg heq, List.map_cons, List.mem_cons] at h
        rcases h with h | h
        · exact Or.inr (by simp [h])
        · rcases ih h with h | h
          · exact Or.inl h
          · exact Or.inr (by simp [h])

theorem sorted_btInsert (k : Key) (v : Option Value) {m : List (Key × Option Value)}
    (h : (m.map Prod.fst).Pairwise (· < ·)) :
    ((btInsert k v m).map Prod.fst).Pairwise (· < ·) := by
  induction m with
  | nil => simp [btInsert]
  | cons hd tl ih =>
    obtain ⟨k'', v''⟩ := hd
    simp only [List.map_cons, List.pairwise_cons] at h
    by_cases hlt : k < k''
    · simp only [btInsert, if_pos hlt, List.map_cons, List.pairwise_cons]
      refine ⟨?_, h.1, h.2⟩
      intro a ha
      simp only [List.map_cons, List.mem_cons] at ha
      rcases ha with rfl | ha
      · exact hlt
      · exact lt_trans hlt (h.1 a ha)
    · by_cases heq : k = k''
      · subst heq
        have hins : btInsert k v ((k, v'') :: tl) = (k, v) :: tl := by
          simp [btInsert, hlt]
        rw [hins]
        simp only [List.map_cons, List.pairwise_cons]
        exact ⟨h.1, h.2⟩
      · simp only [btInsert, if_neg hlt, if_neg heq, List.map_cons, List.pairwise_cons]
        refine ⟨?_, ih h.2⟩
        intro a ha
        rcases mem_keys_btInsert ha with rfl | ha
        · rcases lt_trichotomy a k'' with h' | h' | h'
          · exact absurd h' hlt
          · exact absurd h' heq
          · exact h'
        · exact h.1 a ha

/-- Folding one (key-nodup) segment map into an accumulator with
`BTreeMap::insert`: the segment's entries shadow the accumulator's. -/
theorem btGet_foldl_btInsert (key : Key) (data : List (Key × Option Value)) :
    ∀ (m : List (Key × Option Value)), (data.map Prod.fst).Nodup →
    btGet key (data.foldl (fun m kv => btInsert kv.1 kv.2 m) m) =
      match btGet key data with
      | some v => some v
      | none => btGet key m := by
  induction data with
  | nil => intro m _; simp [btGet]
  | cons hd tl ih =>
    intro m hnodup
    obtain ⟨k, v⟩ := hd
    simp only [List.map_cons, List.nodup_cons] at hnodup
    show btGet key (tl.foldl _ (btInsert k v m)) = _
    rw [ih (btInsert k v m) hnodup.2]
    by_cases h : key = k
    · subst h
      rw [btGet_eq_none key tl hnodup.1]
      simp [btGet, btGet_btInsert]
    · rcases hg : btGet key tl with _ | w
      · simp [btGet, h, hg, btGet_btInsert]
      · simp [btGet, h, hg]

theorem segGetList_append (k : Key) (l1 l2 : List SSTableSegment) :
    segGetList k (l1 ++ l2) =
      match segGetList k l1 with
      | some v => some v
      | none => segGetList k l2 := by
  induction l1 with
  | nil => simp [segGetList]
  | cons s l1 ih =>
    rcases hg : btGet k s.data with _ | v
    · simp [segGetList, hg, ih]
    · simp [segGetList, hg]

/-- The merge loop of `compact`, started from any accumulator, answers
lookups like the newest-first segment scan (newest segment shadows). -/
theorem btGet_mergeFold (key : Key) (segs : List SSTableSegment) :
    ∀ (m : List (Key × Option Value)),
    (∀ s ∈ segs, (s.data.map Prod.fst).Nodup) →
    btGet key (segs.foldl (fun m seg => seg.data.foldl (fun m kv => btInsert kv.1 kv.2 m) m) m) =
      match segGetList key segs.reverse with
      | some v => some v
      | none => btGet key m := by
  induction segs with
  | nil => intro m _; simp [segGetList]
  | cons s segs ih =>
    intro m hnodup
    show btGet key (segs.foldl _ (s.data.foldl _ m)) = _
    rw [ih _ (fun s' hs' => hnodup s' (List.mem_cons_of_mem s hs')),
      btGet_foldl_btInsert key s.data m (hnodup s (List.mem_cons_self s segs))]
    rw [show (s :: segs).reverse = segs.reverse ++ [s] from by simp, segGetList_append]
    rcases segGetList key segs.reverse with _ | v
    · rcases hs : btGet key s.data with _ | w <;> simp [segGetList, hs]
    · simp

/-- Merging all segments gives exactly the tail-to-head first-match lookup. -/
theorem btGet_compactMerge (key : Key) (segs : List SSTableSegment)
    (hnodup : ∀ s ∈ segs, (s.data.map Prod.fst).Nodup) :
    btGet key (compactMerge segs) = segGetList key segs.reverse := by
  rw [compactMerge, btGet_mergeFold key segs [] hnodup]
  rcases segGetList key segs.reverse with _ | v <;> simp [btGet]

theorem sorted_foldl_btInsert {data m : List (Key × Option Value)}
    (h : (m.map Prod.fst).Pairwise (· < ·)) :
    (((data.foldl (fun m kv => btInsert kv.1 kv.2 m) m)).map Prod.fst).Pairwise (· < ·) := by
  induction data generalizing m with
  | nil => exact h
  | cons hd tl ih => exact ih (sorted_btInsert hd.1 hd.2 h)

theorem sorted_mergeFold (segs : List SSTableSegment) :
    ∀ {m : List (Key × Option Value)}, (m.map Prod.fst).Pairwise (· < ·) →
    (((segs.foldl (fun m seg => seg.data.foldl (fun m kv => btInsert kv.1 kv.2 m) m) m)).map
      Prod.fst).Pairwise (· < ·) := by
  induction segs with
  | nil => intro m h; exact h
  | cons s segs ih => intro m h; exact ih (sorted_foldl_btInsert h)

theorem sorted_compactMerge (segs : List SSTableSegment) :
    ((compactMerge segs).map Prod.fst).Pairwise (· < ·) :=
  sorted_mergeFold segs (by simp)

/-- The re-chunking loop of `compact`: looked up through the resulting chunk
sequence (newest chunk first), the processed prefix of the merged map is
answered exactly, provided the whole merged map has no duplicate keys. -/
theorem chunk_fold_get (rem : List (Key × Option Value)) :
    ∀ (P : List (Key × Option Value)) (done : List SSTableSegment) (cur : SSTableSegment),
    (((P ++ rem).map Prod.fst).Nodup) →
    (∀ key, segGetList key (done ++ [cur]).reverse = btGet key P) →
    ∀ key,
      segGetList key
        ((rem.foldl compactStep (done, cur)).1 ++ [(rem.foldl compactStep (done, cur)).2]).reverse
      = btGet key (P ++ rem) := by
  induction rem with
  | nil => intro P done cur _ hinv key; simpa using hinv key
  | cons kv rem ih =>
    intro P done cur hnodup hinv key
    obtain ⟨k, v⟩ := kv
    have hassoc : P ++ (k, v) :: rem = (P ++ [(k, v)]) ++ rem := by simp
    have hnodup' : (((P ++ [(k, v)]) ++ rem).map Prod.fst).Nodup := by
      rw [← hassoc]; exact hnodup
    have hknotP : k ∉ P.map Prod.fst := by
      intro hk
      have h1 : (P.map Prod.fst ++ (k :: rem.map Prod.fst)).Nodup := by
        simpa [List.map_append] using hnodup
      exact (List.nodup_append.mp h1).2.2 hk (by simp)
    have hstep : ∀ key,
        segGetList key
          (((compactStep (done, cur) (k, v)).1 ++ [(compactStep (done, cur) (k, v)).2]).reverse)
        = btGet key (P ++ [(k, v)]) := by
      intro key
      have hcur : segGetList key
          (((compactStep (done, cur) (k, v)).1 ++ [(compactStep (done, cur) (k, v)).2]).reverse)
          = segGetList key ((cur.insert k v) :: done.reverse) := by
        rw [compactStep]
        split
        · simp [List.reverse_append]
        · simp [List.reverse_append]
      rw [hcur, btGet_append]
      have hdata : (cur.insert k v).data = btInsert k v cur.data := rfl
      have hinv' := hinv key
      rw [show (done ++ [cur]).reverse = cur :: done.reverse from by simp] at hinv'
      by_cases h' : key = k
      · subst h'
        rw [btGet_eq_none key P hknotP]
        simp [segGetList, hdata, btGet_btInsert, btGet]
      · simp only [segGetList] at hinv'
        simp only [segGetList, hdata, btGet_btInsert, if_neg h']
        rw [hinv']
        have hkv : btGet key [(k, v)] = none := by simp [btGet, h']
        rw [hkv]
        rcases hP : btGet key P with _ | u <;> simp [hP]
    have := ih (P ++ [(k, v)]) (compactStep (done, cur) (k, v)).1
      (compactStep (done, cur) (k, v)).2 hnodup' hstep key
    rw [show ((k, v) :: rem).foldl compactStep (done, cur)
        = rem.foldl compactStep (compactStep (done, cur) (k, v)) from rfl]
    rw [← hassoc] at this
    exact this

/-- **Compaction preserves lookups** on any table with at least one segment
and duplicate-free segment maps. -/
theorem compact_get (t : SSTable)
    (hnodup : ∀ s ∈ t.segments, (s.data.map Prod.fst).Nodup) (key : Key) :
    t.compact.get key = t.get key := by
  rw [get_eq_collapse, get_eq_collapse]
  show collapse (segGetList key (SSTable.compact t).segments.reverse) = _
  have hmergeNodup : ((compactMerge t.segments).map Prod.fst).Nodup :=
    (sorted_compactMerge t.segments).imp ne_of_lt
  have hinv : ∀ k, segGetList k
      (([] : List SSTableSegment)
        ++ [SSTableSegment.new ((t.segments.getLastD (SSTableSegment.new 0)).serial)]).reverse
      = btGet k ([] : List (Key × Option Value)) := by
    intro k
    simp [segGetList, btGet, SSTableSegment.new]
  have hmain := chunk_fold_get (compactMerge t.segments) [] []
    (SSTableSegment.new ((t.segments.getLastD (SSTableSegment.new 0)).serial))
    (by simpa using hmergeNodup) hinv key
  simp only [List.nil_append] at hmain
  rw [show (SSTable.compact t).segments
      = ((compactMerge t.segments).foldl compactStep
          ([], SSTableSegment.new ((t.segments.getLastD (SSTableSegment.new 0)).serial))).1
        ++ [((compactMerge t.segments).foldl compactStep
          ([], SSTableSegment.new ((t.segments.getLastD (SSTableSegment.new 0)).serial))).2]
    from rfl]
  rw [hmain, btGet_compactMerge key t.segments hnodup]

/-! ## Preservation of the invariants -/

theorem chain_le_snoc {l : List Nat} {a b : Nat}
    (h : List.Chain' (· ≤ ·) (l ++ [a])) (hab : a ≤ b) :
    List.Chain' (· ≤ ·) (l ++ [b]) := by
  rw [List.chain'_append] at h ⊢
  obtain ⟨h1, _, h3⟩ := h
  refine ⟨h1, List.chain'_singleton b, ?_⟩
  intro x hx y hy
  simp only [List.head?_cons, Option.mem_def, Option.some.injEq] at hy
  subst hy
  exact le_trans (h3 x hx a (by simp)) hab

theorem chain_le_snoc_snoc {l : List Nat} {a b : Nat}
    (h : List.Chain' (· ≤ ·) (l ++ [a])) (hab : a ≤ b) :
    List.Chain' (· ≤ ·) ((l ++ [a]) ++ [b]) := by
  rw [List.chain'_append]
  refine ⟨h, List.chain'_singleton b, ?_⟩
  intro x hx y hy
  simp only [List.head?_cons, Option.mem_def, Option.some.injEq] at hy
  subst hy
  rw [List.getLast?_concat] at hx
  simp only [Option.mem_def, Option.some.injEq] at hx
  subst hx
  exact hab

theorem wf_empty : WF SSTable.empty := by
  refine ⟨by simp [SSTable.empty], ?_, by simp [SSTable.empty]⟩
  intro s hs
  simp only [SSTable.empty, List.mem_singleton] at hs
  subst hs
  simp [segSorted, SSTableSegment.new]

theorem wf_insert (t : SSTable) (h : WF t) (k : Key) (v : Value) : WF (t.insert k v) := by
  obtain ⟨hne, hsorted, hchain⟩ := h
  obtain ⟨segs⟩ := t
  obtain ⟨init, last, rfl⟩ := exists_append_singleton (by simpa using hne)
  have hsorted' : ∀ s ∈ init ++ [last.insert k (some v)], segSorted s := by
    intro s hs
    rcases List.mem_append.mp hs with hs | hs
    · exact hsorted s (List.mem_append.mpr (Or.inl hs))
    · simp only [List.mem_singleton] at hs
      subst hs
      exact sorted_btInsert k (some v) (hsorted last (by simp))
  have hchain' : List.Chain' (· ≤ ·) ((init ++ [last.insert k (some v)]).map SSTableSegment.serial) := by
    have h0 : List.Chain' (· ≤ ·) (init.map SSTableSegment.serial ++ [last.serial]) := by
      simpa [List.map_append] using hchain
    have h1 := chain_le_snoc h0 (Nat.le_succ last.serial)
    simpa [List.map_append, SSTableSegment.insert] using h1
  simp only [SSTable.insert, modifyLast_append_singleton]
  split
  · refine ⟨by simp [SSTable.addSegment], ?_, ?_⟩
    · intro s hs
      simp only [SSTable.addSegment] at hs
      rcases List.mem_append.mp hs with hs | hs
      · exact hsorted' s hs
      · simp only [List.mem_singleton] at hs
        subst hs
        simp [segSorted, SSTableSegment.new]
    · show List.Chain' (· ≤ ·) (((init ++ [last.insert k (some v)])
        ++ [SSTableSegment.new _]).map SSTableSegment.serial)
      have h0 : List.Chain' (· ≤ ·)
          (init.map SSTableSegment.serial ++ [(last.insert k (some v)).serial]) := by
        simpa [List.map_append] using hchain'
      have h1 := chain_le_snoc_snoc h0 (le_refl (last.insert k (some v)).serial)
      simp only [List.map_append, List.map_cons, List.map_nil]
      simpa [List.getLastD_concat, SSTableSegment.new] using h1
  · exact ⟨by simp, hsorted', hchain'⟩

theorem wf_delete (t : SSTable) (h : WF t) (k : Key) : WF (t.delete k) := by
  obtain ⟨hne, hsorted, hchain⟩ := h
  obtain ⟨segs⟩ := t
  obtain ⟨init, last, rfl⟩ := exists_append_singleton (by simpa using hne)
  show WF ⟨modifyLast _ (init ++ [last])⟩
  rw [modifyLast_append_singleton]
  refine ⟨by simp, ?_, ?_⟩
  · intro s hs
    rcases List.mem_append.mp hs with hs | hs
    · exact hsorted s (List.mem_append.mpr (Or.inl hs))
    · simp only [List.mem_singleton] at hs
      subst hs
      exact sorted_btInsert k none (hsorted last (by simp))
  · have h0 : List.Chain' (· ≤ ·) (init.map SSTableSegment.serial ++ [last.serial]) := by
      simpa [List.map_append] using hchain
    have h1 := chain_le_snoc h0 (Nat.le_succ last.serial)
    simpa [List.map_append, SSTableSegment.delete] using h1

theorem compact_fold_wf (rem : List (Key × Option Value)) :
    ∀ (done : List SSTableSegment) (cur : SSTableSegment),
    (∀ s ∈ done ++ [cur], segSorted s) →
    List.Chain' (· ≤ ·) ((done ++ [cur]).map SSTableSegment.serial) →
    (∀ s ∈ (rem.foldl compactStep (done, cur)).1 ++ [(rem.foldl compactStep (done, cur)).2],
      segSorted s) ∧
    List.Chain' (· ≤ ·)
      (((rem.foldl compactStep (done, cur)).1
        ++ [(rem.foldl compactStep (done, cur)).2]).map SSTableSegment.serial) := by
  induction rem with
  | nil => intro done cur hs hc; exact ⟨hs, hc⟩
  | cons kv rem ih =>
    intro done cur hs hc
    have hcur2 : segSorted (cur.insert kv.1 kv.2) :=
      sorted_btInsert kv.1 kv.2 (hs cur (by simp))
    have hserial : (cur.insert kv.1 kv.2).serial = cur.serial + 1 := rfl
    have hchain0 : List.Chain' (· ≤ ·) (done.map SSTableSegment.serial ++ [cur.serial]) := by
      simpa [List.map_append] using hc
    rcases hsplit : compactStep (done, cur) kv with ⟨done', cur'⟩
    have hcases : (done' = done ++ [cur.insert kv.1 kv.2]
          ∧ cur' = SSTableSegment.new (cur.insert kv.1 kv.2).serial)
        ∨ (done' = done ∧ cur' = cur.insert kv.1 kv.2) := by
      rw [compactStep] at hsplit
      split at hsplit
      · cases hsplit
        exact Or.inl ⟨rfl, rfl⟩
      · cases hsplit
        exact Or.inr ⟨rfl, rfl⟩
    simp only [List.foldl_cons]
    rw [hsplit]
    rcases hcases with ⟨hd, hcu⟩ | ⟨hd, hcu⟩ <;> subst hd hcu
    · apply ih
      · intro s hmem
        rcases List.mem_append.mp hmem with hmem | hmem
        · rcases List.mem_append.mp hmem with hmem | hmem
          · exact hs s (by simp [hmem])
          · simp only [List.mem_singleton] at hmem
            subst hmem
            exact hcur2
        · simp only [List.mem_singleton] at hmem
          subst hmem
          simp [segSorted, SSTableSegment.new]
      · have h1 := chain_le_snoc hchain0 (Nat.le_succ cur.serial)
        have h2 := chain_le_snoc_snoc h1 (le_refl (cur.serial + 1))
        simp only [List.map_append, List.map_cons, List.map_nil]
        simpa [SSTableSegment.new, hserial] using h2
    · apply ih
      · intro s hmem
        rcases List.mem_append.mp hmem with hmem | hmem
        · exact hs s (by simp [hmem])
        · simp only [List.mem_singleton] at hmem
          subst hmem
          exact hcur2
      · have h1 := chain_le_snoc hchain0 (Nat.le_succ cur.serial)
        simpa [List.map_append, hserial] using h1

theorem wf_compact (t : SSTable) (h : WF t) : WF t.compact := by
  obtain ⟨hne, hsorted, hchain⟩ := h
  have hfold := compact_fold_wf (compactMerge t.segments) []
    (SSTableSegment.new ((t.segments.getLastD (SSTableSegment.new 0)).serial))
    (by
      intro s hs
      simp only [List.nil_append, List.mem_singleton] at hs
      subst hs
      simp [segSorted, SSTableSegment.new])
    (by simp)
  exact ⟨by simp [SSTable.compact], hfold.1, hfold.2⟩

theorem wf_applyTOp (t : SSTable) (h : WF t) (op : TOp) : WF (applyTOp t op) := by
  cases op with
  | ins k v => exact wf_insert t h k v
  | del k => exact wf_delete t h k
  | compact => exact wf_compact t h

theorem wf_applyTOps (ops : List TOp) : WF (applyTOps SSTable.empty ops) := by
  suffices h : ∀ t, WF t → WF (applyTOps t ops) from h SSTable.empty wf_empty
  induction ops with
  | nil => intro t h; exact h
  | cons op ops ih => intro t h; exact ih (applyTOp t op) (wf_applyTOp t h op)

theorem wf_reachable (t : SSTable) (h : Reachable t) : WF t := by
  obtain ⟨ops, rfl⟩ := h
  exact wf_applyTOps ops

/-- **C7.** Compaction is a read fixed point: on every reachable table,
`get(key)` after `compact()` equals `get(key)` before, for every key. -/
theorem c7_compact_read_fixed_point (t : SSTable) (h : Reachable t) (key : Key) :
    t.compact.get key = t.get key := by
  have hwf := wf_reachable t h
  exact compact_get t (fun s hs => (hwf.2.1 s hs).imp ne_of_lt) key

/-- Witness for C7 at a concrete reachable table. -/
theorem c7_compact_read_fixed_point_witness :
    (applyTOps SSTable.empty [TOp.ins [97] [1]]).compact.get [97]
      = (applyTOps SSTable.empty [TOp.ins [97] [1]]).get [97] :=
  c7_compact_read_fixed_point (applyTOps SSTable.empty [TOp.ins [97] [1]])
    ⟨[TOp.ins [97] [1]], rfl⟩ [97]

/-- **C8 (counterexample).** A single insert that overflows the size limit
rotates and leaves two segments with equal serials (1, 1): the serials of a
reachable table are not strictly increasing from head to tail. -/
theorem c8_counterexample :
    ¬ List.Chain' (· < ·)
      ((applyTOps SSTable.empty [TOp.ins [107] (List.replicate 1024 0)]).segments.map
        SSTableSegment.serial) := by
  have h : (applyTOps SSTable.empty [TOp.ins [107] (List.replicate 1024 0)]).segments.map
      SSTableSegment.serial = [1, 1] := by decide
  rw [h]
  intro hc
  exact absurd (List.chain'_cons.mp hc).1 (lt_irrefl 1)

/-- **C8 (amended).** On every reachable table the segment serials are
non-decreasing from head to tail; a freshly appended open segment starts at
exactly its predecessor's terminal serial (so adjacent serials are equal
until its first mutation), and each mutating call increments the open
segment's serial by one. -/
theorem c8_serials_monotone (t : SSTable) (h : Reachable t) :
    List.Chain' (· ≤ ·) (t.segments.map SSTableSegment.serial) :=
  (wf_reachable t h).2.2

/-- Witness for the amended C8 at a concrete reachable table. -/
theorem c8_serials_monotone_witness :
    List.Chain' (· ≤ ·)
      ((applyTOps SSTable.empty [TOp.ins [107] (List.replicate 1024 0)]).segments.map
        SSTableSegment.serial) :=
  c8_serials_monotone (applyTOps SSTable.empty [TOp.ins [107] (List.replicate 1024 0)])
    ⟨[TOp.ins [107] (List.replicate 1024 0)], rfl⟩

example : SSTable.readSegment [97, 0, 2, 0, 0, 0, 5, 6] 0
    = .ok ⟨[([97], some [5, 6])], 3, 1⟩ := by
  simp [SSTable.readSegment, readSegmentLoop, List.takeWhile, List.dropWhile,
    SSTableSegment.insert, SSTableSegment.new, btGet, btInsert,
    show utf8Valid [97] = true from by decide]

example : SSTable.readSegment [97, 0, 0, 0, 0, 0] 0 = .ok ⟨[([97], none)], 1, 1⟩ := by
  simp [SSTable.readSegment, readSegmentLoop, List.takeWhile, List.dropWhile,
    SSTableSegment.insert, SSTableSegment.new, btGet, btInsert,
    show utf8Valid [97] = true from by decide]

example : SSTable.readSegment [97] 0 = .error .unexpectedEof := by
  simp [SSTable.readSegment, readSegmentLoop, List.takeWhile, List.dropWhile]

example : SSTable.readSegment [255, 255, 0, 0, 0, 0, 0] 0 = .error .invalidData := by
  simp [SSTable.readSegment, readSegmentLoop, List.takeWhile, List.dropWhile,
    show utf8Valid [255, 255] = false from by decide]

example : SSTable.writeSegment ⟨[([97], some [5, 6]), ([98], none)], 0, 0⟩
    = [97, 0, 2, 0, 0, 0, 5, 6, 98, 0, 0, 0, 0, 0] := by rfl

theorem takeWhile_key (k t : List Nat) (hk : ∀ b ∈ k, b ≠ 0) :
    (k ++ 0 :: t).takeWhile (fun b => b != 0) = k := by
  induction k with
  | nil => simp
  | cons a k ih =>
    have ha : a ≠ 0 := hk a (by simp)
    simp only [List.cons_append, List.takeWhile_cons]
    simp [ha, ih (fun b hb => hk b (by simp [hb]))]

theorem dropWhile_key (k t : List Nat) (hk : ∀ b ∈ k, b ≠ 0) :
    (k ++ 0 :: t).dropWhile (fun b => b != 0) = 0 :: t := by
  induction k with
  | nil => simp
  | cons a k ih =>
    have ha : a ≠ 0 := hk a (by simp)
    simp only [List.cons_append, List.dropWhile_cons]
    simp [ha, ih (fun b hb => hk b (by simp [hb]))]

/-- One unfolding of the `read_segment` loop on a well-delimited entry. -/
theorem readSegmentLoop_step (seg : SSTableSegment) (k : Key) (l0 l1 l2 l3 : Nat)
    (r : List Nat) (hk : ∀ b ∈ k, b ≠ 0) :
    readSegmentLoop seg (k ++ 0 :: l0 :: l1 :: l2 :: l3 :: r)
      = (if utf8Valid k then
          if l0 + 256 * l1 + 65536 * l2 + 16777216 * l3 = 0 then
            readSegmentLoop (seg.insert k none) r
          else if r.length < l0 + 256 * l1 + 65536 * l2 + 16777216 * l3 then
            .error .unexpectedEof
          else
            readSegmentLoop
              (seg.insert k (some (r.take (l0 + 256 * l1 + 65536 * l2 + 16777216 * l3))))
              (r.drop (l0 + 256 * l1 + 65536 * l2 + 16777216 * l3))
        else .error .invalidData) := by
  have htake := takeWhile_key k (l0 :: l1 :: l2 :: l3 :: r) hk
  have hdrop := dropWhile_key k (l0 :: l1 :: l2 :: l3 :: r) hk
  rw [readSegmentLoop.eq_def]
  split
  · rename_i heq
    exact absurd heq (by simp)
  · rename_i heq
    rw [htake]
    split
    · rename_i hr
      rw [hdrop] at hr
      exact absurd hr (by simp)
    · rename_i hr
      rw [hdrop] at hr
      obtain ⟨rfl, rfl, rfl, rfl, rfl, rfl⟩ := by
        simpa using hr.symm
      rfl
    · rename_i hne hr
      rw [hdrop] at hr
      obtain ⟨h1, h2⟩ := List.cons.inj hr
      exact (hne l0 l1 l2 l3 r h2.symm).elim

theorem btInsert_append_gt (k : Key) (v : Option Value) (m : List (Key × Option Value))
    (h : ∀ a ∈ m.map Prod.fst, a < k) :
    btInsert k v m = m ++ [(k, v)] := by
  induction m with
  | nil => rfl
  | cons hd tl ih =>
    obtain ⟨k'', v''⟩ := hd
    have hk'' : k'' < k := h k'' (by simp)
    have h1 : ¬ k < k'' := lt_asymm hk''
    have h2 : ¬ k = k'' := (ne_of_lt hk'').symm
    simp [btInsert, h1, h2, ih (fun a ha => h a (by simp [ha]))]

/-- Re-inserting a strictly-ascending entry list into a segment whose keys
all precede it appends the entries in order and adds the canonical size and
one serial increment per entry — exactly what `read_segment` does while
decoding `write_segment` output. -/
theorem foldl_insert_sorted (data : List (Key × Option Value)) :
    ∀ (seg : SSTableSegment),
    ((seg.data.map Prod.fst ++ data.map Prod.fst).Pairwise (· < ·)) →
    data.foldl (fun sg kv => sg.insert kv.1 kv.2) seg
      = ⟨seg.data ++ data, seg.size + canonicalSize data, seg.serial + data.length⟩ := by
  induction data with
  | nil =>
    intro seg _
    cases seg
    simp [canonicalSize]
  | cons kv data ih =>
    intro seg h
    obtain ⟨k, v⟩ := kv
    have hpw := List.pairwise_append.mp h
    have hseglt : ∀ a ∈ seg.data.map Prod.fst, a < k := by
      intro a ha
      exact hpw.2.2 a ha k (by simp)
    have hbtget : btGet k seg.data = none :=
      btGet_eq_none k seg.data (fun hc => absurd (hseglt k hc) (lt_irrefl k))
    have hinsert : seg.insert k v
        = ⟨seg.data ++ [(k, v)], seg.size + entrySize (k, v), seg.serial + 1⟩ := by
      rw [SSTableSegment.insert.eq_def]
      simp only [hbtget, btInsert_append_gt k v seg.data hseglt]
      cases v with
      | none => simp [entrySize]
      | some w => simp [entrySize, Nat.add_assoc]
    show data.foldl _ (seg.insert k v) = _
    rw [hinsert, ih ⟨seg.data ++ [(k, v)], seg.size + entrySize (k, v), seg.serial + 1⟩
      (by
        show ((seg.data ++ [(k, v)]).map Prod.fst ++ data.map Prod.fst).Pairwise (· < ·)
        have : (seg.data ++ [(k, v)]).map Prod.fst ++ data.map Prod.fst
            = seg.data.map Prod.fst ++ ((k, v) :: data).map Prod.fst := by
          simp
        rw [this]
        exact h)]
    simp only [SSTableSegment.mk.injEq]
    refine ⟨by simp, ?_, ?_⟩
    · simp [canonicalSize]
      omega
    · simp [Nat.add_assoc, Nat.add_comm 1 data.length]

/-- Decoding the encoding of a good entry list, from any starting segment:
each entry is re-inserted in order. -/
theorem readSegmentLoop_writeSegment (data : List (Key × Option Value)) :
    ∀ (seg : SSTableSegment), (∀ kv ∈ data, goodEntry kv) →
    readSegmentLoop seg ((data.map writeEntry).flatten)
      = .ok (data.foldl (fun sg kv => sg.insert kv.1 kv.2) seg) := by
  induction data with
  | nil => intro seg _; simp [readSegmentLoop]
  | cons kv data ih =>
    intro seg hgood
    obtain ⟨k, v⟩ := kv
    obtain ⟨hutf, hzero, hval⟩ := hgood (k, v) (by simp)
    cases v with
    | none =>
      have hflat : (((k, (none : Option Value)) :: data).map writeEntry).flatten
          = k ++ 0 :: 0 :: 0 :: 0 :: 0 :: (data.map writeEntry).flatten := by
        simp [writeEntry]
      rw [hflat, readSegmentLoop_step seg k 0 0 0 0 _ hzero, if_pos hutf]
      norm_num
      exact ih _ (fun kv hkv => hgood kv (by simp [hkv]))
    | some w =>
      obtain ⟨hwpos, hwlt⟩ := hval w rfl
      have hdec : w.length % 256 + 256 * (w.length / 256 % 256)
          + 65536 * (w.length / 65536 % 256) + 16777216 * (w.length / 16777216 % 256)
          = w.length := by omega
      have hflat : (((k, some w) :: data).map writeEntry).flatten
          = k ++ 0 :: (w.length % 256) :: (w.length / 256 % 256) :: (w.length / 65536 % 256)
            :: (w.length / 16777216 % 256) :: (w ++ (data.map writeEntry).flatten) := by
        simp [writeEntry, u32le]
      rw [hflat, readSegmentLoop_step seg k _ _ _ _ _ hzero, if_pos hutf, hdec,
        if_neg (by omega : ¬ w.length = 0),
        if_neg (by simp : ¬ (w ++ (data.map writeEntry).flatten).length < w.length),
        List.take_left, List.drop_left]
      exact ih _ (fun kv hkv => hgood kv (by simp [hkv]))

/-- **C2 (counterexample).** A segment holding the live empty value for key
`"a"` (canonical size 1) decodes, after encoding, to a segment holding a
tombstone for `"a"`: the empty live value is encoded as four zero length
bytes, indistinguishable from a tombstone, so live values do not stay live
and the key-to-Entry mapping changes. -/
theorem c2_counterexample :
    SSTable.readSegment (SSTable.writeSegment ⟨[([97], some [])], 1, 0⟩) 0
      = .ok ⟨[([97], none)], 1, 1⟩
    ∧ some ([] : Value) ≠ (none : Option Value) := by
  constructor
  · have hw : SSTable.writeSegment ⟨[([97], some [])], 1, 0⟩ = [97, 0, 0, 0, 0, 0] := rfl
    rw [hw]
    simp [SSTable.readSegment, readSegmentLoop, List.takeWhile, List.dropWhile,
      SSTableSegment.insert, SSTableSegment.new, btGet, btInsert,
      show utf8Valid [97] = true from by decide]
  · simp

/-- **C2 (amended).** For every segment whose map is strictly key-sorted
with null-free UTF-8 keys, whose live values are nonempty and shorter than
`2^32`, and whose size equals the canonical accounting of its map, encoding
with `write_segment` and decoding with `read_segment` yields an identical
key-to-Entry mapping and an equal size (the decoded serial is the initial
serial plus one increment per entry). -/
theorem c2_segment_roundtrip (s : SSTableSegment) (i : Nat)
    (hsorted : (s.data.map Prod.fst).Pairwise (· < ·))
    (hgood : ∀ kv ∈ s.data, goodEntry kv)
    (hsize : s.size = canonicalSize s.data) :
    SSTable.readSegment (SSTable.writeSegment s) i
      = .ok ⟨s.data, s.size, i + s.data.length⟩ := by
  rw [SSTable.readSegment, SSTable.writeSegment,
    readSegmentLoop_writeSegment s.data (SSTableSegment.new i) hgood,
    foldl_insert_sorted s.data (SSTableSegment.new i)
      (by simpa [SSTableSegment.new] using hsorted)]
  simp [SSTableSegment.new, hsize]

/-- Witness for the amended C2 at a concrete segment. -/
theorem c2_segment_roundtrip_witness :
    SSTable.readSegment (SSTable.writeSegment ⟨[([97], some [1, 2])], 3, 5⟩) 7
      = .ok ⟨[([97], some [1, 2])], 3, 8⟩ :=
  c2_segment_roundtrip ⟨[([97], some [1, 2])], 3, 5⟩ 7 (by simp)
    (by
      intro kv hkv
      simp only [List.mem_singleton] at hkv
      subst hkv
      refine ⟨by decide, by decide, ?_⟩
      intro w hw
      cases hw
      decide)
    (by decide)

/-! ## Construction from a directory (C3, C4) -/

theorem readLoop_length (fs : List FsFile) :
    ∀ (serial : Nat) (segs : List SSTableSegment),
    readLoop serial fs = .ok segs → segs.length = fs.length := by
  induction fs with
  | nil =>
    intro serial segs h
    simp only [readLoop] at h
    cases h
    rfl
  | cons f fs ih =>
    intro serial segs h
    simp only [readLoop] at h
    split at h
    · cases h
    · split at h
      · cases h
      · split at h
        · cases h
        · rename_i seg heq segs' hl
          cases h
          simpa using ih _ segs' hl

/-- **C3 (counterexample).** A directory with one valid sealed file
(`3.sst`, three tombstone entries, terminal serial 3 matching the stem)
loads into a table with exactly one segment: contrary to the claim, no
additional fresh open segment is appended after a nonempty load, so the
table does not have n+1 = 2 segments. -/
theorem c3_counterexample :
    (SSTable.tryNew (DirState.dir [⟨['3'], some ['s', 's', 't'],
        [97, 0, 0, 0, 0, 0, 98, 0, 0, 0, 0, 0, 99, 0, 0, 0, 0, 0]⟩])).segments.length = 1
    ∧ (1 : Nat) ≠ 1 + 1 := by
  refine ⟨?_, by decide⟩
  have hread : SSTable.readSegment
      [97, 0, 0, 0, 0, 0, 98, 0, 0, 0, 0, 0, 99, 0, 0, 0, 0, 0] 0
      = .ok ⟨[([97], none), ([98], none), ([99], none)], 3, 3⟩ := by
    simp [SSTable.readSegment, readSegmentLoop, List.takeWhile, List.dropWhile,
      SSTableSegment.insert, SSTableSegment.new, btGet, btInsert,
      show utf8Valid [97] = true from by decide,
      show utf8Valid [98] = true from by decide,
      show utf8Valid [99] = true from by decide,
      show ¬ ([98] : Key) < [97] from by decide,
      show ¬ ([99] : Key) < [97] from by decide,
      show ¬ ([99] : Key) < [98] from by decide]
  simp [SSTable.tryNew, SSTable.read, validateFiles, sortFiles, readLoop, hread,
    show parseSerial ⟨['3'], some ['s', 's', 't'],
      [97, 0, 0, 0, 0, 0, 98, 0, 0, 0, 0, 0, 99, 0, 0, 0, 0, 0]⟩ = some 3 from by decide]

/-- **C3 (amended).** When loading the directory succeeds, `try_new`
produces exactly the loaded sealed segments; a single fresh open segment
(serial 0) is used only when nothing was loaded.  In particular after
loading n ≥ 1 sealed files the table has exactly n segments (the last
loaded segment acts as the open one), not n+1. -/
theorem c3_tryNew_segments (files : List FsFile) (segs : List SSTableSegment)
    (h : SSTable.read (DirState.dir files) = .ok segs) :
    (SSTable.tryNew (DirState.dir files)).segments
      = (if segs.isEmpty then [SSTableSegment.new 0] else segs)
    ∧ segs.length = files.length := by
  constructor
  · simp only [SSTable.tryNew, h]
    split <;> rfl
  · simp only [SSTable.read] at h
    rcases hv : validateFiles files with e | u <;> rw [hv] at h
    · cases h
    · have := readLoop_length (sortFiles files) 0 segs h
      simpa [sortFiles] using this

/-- Witness for the amended C3 at the concrete one-file directory. -/
theorem c3_tryNew_segments_witness :
    (SSTable.tryNew (DirState.dir [⟨['3'], some ['s', 's', 't'],
        [97, 0, 0, 0, 0, 0, 98, 0, 0, 0, 0, 0, 99, 0, 0, 0, 0, 0]⟩])).segments
      = (if ([(⟨[([97], none), ([98], none), ([99], none)], 3, 3⟩ : SSTableSegment)]).isEmpty
          then [SSTableSegment.new 0]
          else [⟨[([97], none), ([98], none), ([99], none)], 3, 3⟩])
    ∧ ([(⟨[([97], none), ([98], none), ([99], none)], 3, 3⟩ : SSTableSegment)]).length
      = [(⟨['3'], some ['s', 's', 't'],
          [97, 0, 0, 0, 0, 0, 98, 0, 0, 0, 0, 0, 99, 0, 0, 0, 0, 0]⟩ : FsFile)].length := by
  apply c3_tryNew_segments
  have hread : SSTable.readSegment
      [97, 0, 0, 0, 0, 0, 98, 0, 0, 0, 0, 0, 99, 0, 0, 0, 0, 0] 0
      = .ok ⟨[([97], none), ([98], none), ([99], none)], 3, 3⟩ := by
    simp [SSTable.readSegment, readSegmentLoop, List.takeWhile, List.dropWhile,
      SSTableSegment.insert, SSTableSegment.new, btGet, btInsert,
      show utf8Valid [97] = true from by decide,
      show utf8Valid [98] = true from by decide,
      show utf8Valid [99] = true from by decide,
      show ¬ ([98] : Key) < [97] from by decide,
      show ¬ ([99] : Key) < [97] from by decide,
      show ¬ ([99] : Key) < [98] from by decide]
  simp [SSTable.read, validateFiles, sortFiles, readLoop, hread,
    show parseSerial ⟨['3'], some ['s', 's', 't'],
      [97, 0, 0, 0, 0, 0, 98, 0, 0, 0, 0, 0, 99, 0, 0, 0, 0, 0]⟩ = some 3 from by decide]

theorem validateFiles_error (files : List FsFile)
    (h : ∃ f ∈ files, f.ext ≠ some ['s', 's', 't'] ∨ parseSerial f = none) :
    validateFiles files = .error .invalidInput := by
  induction files with
  | nil => simp at h
  | cons f fs ih =>
    obtain ⟨g, hg, hbad⟩ := h
    by_cases h1 : f.ext = some ['s', 's', 't']
    · by_cases h2 : parseSerial f = none
      · simp [validateFiles, h1, h2]
      · have h3 : ∃ g ∈ fs, g.ext ≠ some ['s', 's', 't'] ∨ parseSerial g = none := by
          rcases List.mem_cons.mp hg with rfl | hg'
          · rcases hbad with hb | hb
            · exact absurd h1 hb
            · exact absurd hb h2
          · exact ⟨g, hg', hbad⟩
        simp [validateFiles, h1, Option.isNone_iff_eq_none, h2, ih h3]
    · simp [validateFiles, h1]

/-- **C4 (counterexample).** Constructing on a root that is not a directory
does not fail: `try_new` discards the read error (`unwrap_or_default`) and
succeeds with a table holding a single fresh empty segment. -/
theorem c4_counterexample :
    SSTable.tryNew DirState.notDir = ⟨[SSTableSegment.new 0]⟩ := rfl

/-- **C4 (amended).** `SSTable::read` fails with invalid-input whenever the
root is not a directory, and whenever some file has a non-`sst` extension or
a non-numeric stem — but the error never propagates out of construction:
`try_new` swallows it (`unwrap_or_default`) and succeeds with a single fresh
empty segment of serial 0. -/
theorem c4_read_invalid_input (files : List FsFile)
    (h : ∃ f ∈ files, f.ext ≠ some ['s', 's', 't'] ∨ parseSerial f = none) :
    SSTable.read (DirState.dir files) = .error .invalidInput
    ∧ SSTable.tryNew (DirState.dir files) = ⟨[SSTableSegment.new 0]⟩
    ∧ SSTable.read DirState.notDir = .error .invalidInput
    ∧ SSTable.tryNew DirState.notDir = ⟨[SSTableSegment.new 0]⟩ := by
  have hv := validateFiles_error files h
  have hr : SSTable.read (DirState.dir files) = .error .invalidInput := by
    simp [SSTable.read, hv]
  refine ⟨hr, ?_, rfl, rfl⟩
  simp [SSTable.tryNew, hr]

/-- Witness for the amended C4 at a concrete bad filename. -/
theorem c4_read_invalid_input_witness :
    SSTable.read (DirState.dir [⟨['0'], some ['t', 'x', 't'], []⟩]) = .error .invalidInput
    ∧ SSTable.tryNew (DirState.dir [⟨['0'], some ['t', 'x', 't'], []⟩])
      = ⟨[SSTableSegment.new 0]⟩
    ∧ SSTable.read DirState.notDir = .error .invalidInput
    ∧ SSTable.tryNew DirState.notDir = ⟨[SSTableSegment.new 0]⟩ :=
  c4_read_invalid_input [⟨['0'], some ['t', 'x', 't'], []⟩]
    ⟨⟨['0'], some ['t', 'x', 't'], []⟩, by simp, Or.inl (by decide)⟩

/-- **C5 (code bug).** Evaluating `write` at the failing input: write five
bytes, seek the cursor back to 0, write one more byte.  The code sets the
tail segment's `end` to `cursor + len = 1` instead of advancing it from its
previous end 5 to 6, so the segment bounds (and total logical length)
collapse to 1 even though the byte physically landed at file offset 5 — the
cursor position does affect the resulting segment bounds, contradicting the
claim (and §4.1 of the spec, which this claim restates). -/
theorem c5_code_bug :
    (((FileSegmentStream.new 100).write [1, 2, 3, 4, 5]).seek (SeekFrom.start 0)).map
        (fun p => ((p.1.write [9]).segments.map (fun sg => (sg.start, sg.endPos, sg.fileData)),
          (p.1.write [9]).position))
      = .ok ([(0, 1, [1, 2, 3, 4, 5, 9])], 1) := by rfl

/-- **C10.** `FileSegmentStream::read` never moves the logical cursor: the
stream's position after a read equals its position before (and the segment
bounds are untouched), so a subsequent read without an intervening seek or
write starts from the same logical position. -/
theorem c10_read_preserves_position (s : FileSegmentStream) (buf : List Nat) :
    (s.read buf).1.position = s.position
    ∧ (s.read buf).1.position = ((s.read buf).1.read buf).1.position := by
  have hp : ∀ (t : FileSegmentStream) (b : List Nat), (t.read b).1.position = t.position := by
    intro t b
    rw [FileSegmentStream.read]
    split
    · rfl
    · split
      · rfl
      · rfl
  exact ⟨hp s buf, (hp ((s.read buf).1) buf).symm⟩

/-- Witness for C10 at a concrete stream state. -/
theorem c10_read_preserves_position_witness :
    ((FileSegmentStream.new 10).read [0]).1.position = (FileSegmentStream.new 10).position
    ∧ ((FileSegmentStream.new 10).read [0]).1.position
      = ((((FileSegmentStream.new 10).read [0]).1).read [0]).1.position :=
  c10_read_preserves_position (FileSegmentStream.new 10) [0]

/-- **C6 (counterexample).** A truncated stream — length field 10 but only
5 payload bytes — does not end the iteration: the payload read returns the
short count 5 (not zero), so `next` yields an item of the declared length
10, its tail padded from the zero-filled buffer.  The claim that any short
read ends the sequence with no item is false. -/
theorem c6_counterexample :
    (LogIterator.next ⟨0, []⟩ ⟨[0, 0, 0, 10, 1, 2, 3, 4, 5], 0⟩).1
      = some [1, 2, 3, 4, 5, 0, 0, 0, 0, 0]
    ∧ some [1, 2, 3, 4, 5, 0, 0, 0, 0, 0] ≠ (none : Option (List Nat)) := by
  exact ⟨rfl, by simp⟩

/-- **C6 (amended).** Each step of a `Log` iterator reads a 4-byte
big-endian length and then that many payload bytes.  A zero-byte read of
the length field (end of stream) ends the sequence with no item; so does a
zero-byte read of the payload field (nothing remains after a complete
length field, or the decoded size is zero, so the read of `buf[..size]`
returns `Ok(0)`); and whenever the stream holds a complete frame at the
scan position (at least 4 length bytes, nonzero decoded size, and a full
payload), the step yields exactly that payload and advances the position by
`4 + size`.  (A short nonzero read, however, is not detected — see the
counterexample — so truncated frames can yield padded items.) -/
theorem c6_next_frames (c : Cursor) (it : LogIterator) :
    (c.data.length ≤ it.position → (it.next c).1 = none)
    ∧ (∀ size, size = u32beDecode ((c.data.drop it.position).take 4) →
        4 ≤ c.data.length - it.position →
        (size = 0 ∨ c.data.length ≤ it.position + 4) →
        (it.next c).1 = none)
    ∧ (∀ size, size = u32beDecode ((c.data.drop it.position).take 4) →
        4 ≤ c.data.length - it.position → 0 < size →
        size ≤ c.data.length - (it.position + 4) →
        (it.next c).1 = some ((c.data.drop (it.position + 4)).take size)
        ∧ (it.next c).2.1.position = it.position + 4 + size) := by
  refine ⟨?_, ?_, ?_⟩
  · intro h
    have hdrop : (c.data.drop it.position).length = 0 := by
      simp [List.length_drop]
      omega
    simp [LogIterator.next, Cursor.seekStart, Cursor.read, hdrop]
  · intro size hsize h4 hzero
    have hlen1 : min 4 (c.data.drop it.position).length = 4 := by
      simp [List.length_drop]
      omega
    have htake4 : ((c.data.drop it.position).take 4 ++ [0, 0, 0, 0].drop 4)
        = (c.data.drop it.position).take 4 := by simp
    have hdrop2 : (c.data.drop (it.position + 4)).length
        = c.data.length - (it.position + 4) := by
      simp [List.length_drop]
    simp only [LogIterator.next, Cursor.seekStart, Cursor.read, List.length_cons,
      List.length_nil, hlen1]
    rw [if_neg (by omega)]
    simp only [htake4, List.length_take]
    rw [← hsize]
    have hmin0 : min (min size
        (if it.buf.length < size then it.buf ++ List.replicate (size - it.buf.length) 0
          else it.buf).length)
        (c.data.drop (it.position + 4)).length = 0 := by
      rw [hdrop2]
      omega
    rw [hmin0, if_pos rfl]
  · intro size hsize h4 hpos hfull
    have hlen1 : min 4 (c.data.drop it.position).length = 4 := by
      simp [List.length_drop]
      omega
    have htake4 : ((c.data.drop it.position).take 4 ++ [0, 0, 0, 0].drop 4)
        = (c.data.drop it.position).take 4 := by simp
    have hbuflen : ∀ b : List Nat,
        (if b.length < size then b ++ List.replicate (size - b.length) 0 else b).length ≥ size := by
      intro b
      split <;> simp <;> omega
    have hdrop2 : (c.data.drop (it.position + 4)).length = c.data.length - (it.position + 4) := by
      simp [List.length_drop]
    simp only [LogIterator.next, Cursor.seekStart, Cursor.read, List.length_cons,
      List.length_nil, hlen1]
    rw [if_neg (by omega)]
    simp only [htake4, List.length_take]
    rw [← hsize]
    have hminbuf : min (min size
        (if it.buf.length < size then it.buf ++ List.replicate (size - it.buf.length) 0
          else it.buf).length)
        (c.data.drop (it.position + 4)).length = size := by
      rw [hdrop2]
      split <;> (try simp only [List.length_append, List.length_replicate]) <;> omega
    rw [hminbuf, if_neg (by omega : ¬ size = 0)]
    refine ⟨?_, rfl⟩
    have hnil : (List.take size (if it.buf.length < size
        then it.buf ++ List.replicate (size - it.buf.length) 0 else it.buf)).drop size = [] :=
      List.drop_eq_nil_of_le (by simp [List.length_take])
    rw [hnil, List.append_nil]

/-- Witness for the amended C6: a stream holding the single frame
`[0,0,0,2,7,8]` yields payload `[7,8]` and advances to position 6, and a
stream holding only the complete length field `[0,0,0,5]` (a zero-byte
payload read) yields no item. -/
theorem c6_next_frames_witness :
    (LogIterator.next ⟨0, []⟩ ⟨[0, 0, 0, 2, 7, 8], 0⟩).1 = some [7, 8]
    ∧ (LogIterator.next ⟨0, []⟩ ⟨[0, 0, 0, 2, 7, 8], 0⟩).2.1.position = 0 + 4 + 2
    ∧ (LogIterator.next ⟨0, []⟩ ⟨[0, 0, 0, 5], 0⟩).1 = none := by
  have h := (c6_next_frames ⟨[0, 0, 0, 2, 7, 8], 0⟩ ⟨0, []⟩).2.2 2
    (by decide) (by decide) (by decide) (by decide)
  have h0 := (c6_next_frames ⟨[0, 0, 0, 5], 0⟩ ⟨0, []⟩).2.1 5
    (by decide) (by decide) (Or.inr (by decide))
  exact ⟨by simpa using h.1, h.2, h0⟩

/-- **C9.** Log-before-apply: for every engine state, `insert`/`delete`
first appends the WAL record — encoded from `serial = latestSerial + 1`,
the opcode, the key and the optional value — and flushes the WAL, all while
the table is still unchanged; only the final step mutates the table.  After
the first two steps the table equals the original, the WAL ends with the
new record, and every appended frame is flushed; the completed operation
applies exactly the table mutation. -/
theorem c9_log_before_apply (e : StorageEngine) (k : Key) (v : Value) :
    (((e.insertSteps k v).take 2).foldl engineStepApply e).table = e.table
    ∧ (((e.insertSteps k v).take 2).foldl engineStepApply e).wal
      = e.wal ++ [encodeWalRecord (e.table.latestSerial + 1) 0 k (some v)]
    ∧ (((e.insertSteps k v).take 2).foldl engineStepApply e).walFlushed
      = (e.wal ++ [encodeWalRecord (e.table.latestSerial + 1) 0 k (some v)]).length
    ∧ (e.insert k v).table = e.table.insert k v
    ∧ (((e.deleteSteps k).take 2).foldl engineStepApply e).table = e.table
    ∧ (((e.deleteSteps k).take 2).foldl engineStepApply e).wal
      = e.wal ++ [encodeWalRecord (e.table.latestSerial + 1) 1 k none]
    ∧ (((e.deleteSteps k).take 2).foldl engineStepApply e).walFlushed
      = (e.wal ++ [encodeWalRecord (e.table.latestSerial + 1) 1 k none]).length
    ∧ (e.delete k).table = e.table.delete k := by
  refine ⟨rfl, rfl, rfl, rfl, rfl, rfl, rfl, rfl⟩

end Khimera
